import Mathlib

/-!
Verification development for the telldb transactional secondary-index
subsystem (files `src/Indexes.cpp`, `src/Transaction.cpp`, `telldb/Tuple.hpp`).

The C++ code is shallowly embedded: machine integers become `Nat`/`Int` with
explicit `% 2 ^ w` where overflow matters, byte buffers become `List Nat`
(each element a byte value), fallible code returns `Except`/`Option`, and the
asynchronous storage-tier interaction of a commit is modelled as an explicit
event trace.
-/

namespace TellDB

/-- Field values, the closed variant of the value codec (spec section 3).
The variant list mirrors the `tell::store::FieldType` cases enumerated by
`size_policy`/`serialize_policy`/`deserialize_policy` in `src/Indexes.cpp`
(NOTYPE, NULLTYPE, SMALLINT, INT, BIGINT, FLOAT, DOUBLE, TEXT/BLOB).
Modelled from the spec: the definition of the `Field` class itself
(`telldb/Field.hpp`) is not under `src/`; the spec's data model has a single
length-prefixed byte/text variant, and the codec in `src/Indexes.cpp` treats
TEXT and BLOB identically, so the model uses one `bytes` variant.  Float and
double payloads are carried as their raw bit patterns (the codec copies the
native bytes verbatim). -/
inductive Field where
  | notype
  | null
  | smallint (v : Int)
  | int (v : Int)
  | bigint (v : Int)
  | float (bits : Nat)
  | double (bits : Nat)
  | bytes (s : List Nat)
  deriving DecidableEq

/-- Little-endian byte list of width `w` for the value `v` (the shallow
embedding of `memcpy` of a `w`-byte native integer).  Truncates `v` to
`w` bytes, exactly as the native store does. -/
def leBytes : Nat → Nat → List Nat
  | 0, _ => []
  | w + 1, v => v % 256 :: leBytes w (v / 256)

/-- Value of a little-endian byte list. -/
def leVal : List Nat → Nat
  | [] => 0
  | b :: bs => b % 256 + 256 * leVal bs

/-- Read a `w`-byte little-endian integer from the front of a byte list,
returning the value and the remaining bytes. -/
def readLE (w : Nat) (l : List Nat) : Option (Nat × List Nat) :=
  if w ≤ l.length then some (leVal (l.take w), l.drop w) else none

/-- Two's-complement bit pattern of a signed value in a `w`-byte field
(the bytes that `memcpy` of the native signed integer produces). -/
def intToPattern (w : Nat) (v : Int) : Nat :=
  (v % ((2 ^ (8 * w) : Nat) : Int)).toNat

/-- Signed value of a two's-complement `w`-byte bit pattern. -/
def patternToInt (w : Nat) (n : Nat) : Int :=
  if n < 2 ^ (8 * w - 1) then (n : Int) else (n : Int) - ((2 ^ (8 * w) : Nat) : Int)

/-- Wire tag byte of a field variant, the one-byte `FieldType` written first
by `serialize_policy<Archiver, Field>` (`src/Indexes.cpp`). -/
def Field.tag : Field → Nat
  | .notype => 0
  | .null => 1
  | .smallint _ => 2
  | .int _ => 3
  | .bigint _ => 4
  | .float _ => 5
  | .double _ => 6
  | .bytes _ => 7

/-- Declared wire size of a field, from `size_policy<Archiver, Field>` in
`src/Indexes.cpp`: one tag byte, plus the native width for numerics, plus a
4-byte length prefix and the payload for text/blob. -/
def Field.size : Field → Nat
  | .notype => 1
  | .null => 1
  | .smallint _ => 1 + 2
  | .int _ => 1 + 4
  | .bigint _ => 1 + 8
  | .float _ => 1 + 4
  | .double _ => 1 + 8
  | .bytes s => 1 + (4 + s.length)

/-- Encoding of a field, from `serialize_policy<Archiver, Field>` in
`src/Indexes.cpp`: the tag byte, then the variant payload.  For text/blob the
length is first truncated to an unsigned 32-bit value (`uint32_t sz`), and
`sz` payload bytes are copied, exactly as the C++ does. -/
def Field.encode : Field → List Nat
  | .notype => [0]
  | .null => [1]
  | .smallint v => 2 :: leBytes 2 (intToPattern 2 v)
  | .int v => 3 :: leBytes 4 (intToPattern 4 v)
  | .bigint v => 4 :: leBytes 8 (intToPattern 8 v)
  | .float b => 5 :: leBytes 4 b
  | .double b => 6 :: leBytes 8 b
  | .bytes s => 7 :: (leBytes 4 s.length ++ s.take (s.length % 2 ^ 32))

/-- Decoding of a field, from `deserialize_policy<Archiver, Field>` in
`src/Indexes.cpp`: read the tag byte, then the variant payload; both the TEXT
and the BLOB tag produce a byte/text field.  A NOTYPE tag assigns nothing to
the output field, which the caller default-constructs as NOTYPE.  Reading past
the end of the buffer or an unknown tag yields `none` (schema violation,
spec section 4.1). -/
def Field.decode : List Nat → Option (Field × List Nat)
  | [] => none
  | t :: r =>
    if t = 0 then some (.notype, r)
    else if t = 1 then some (.null, r)
    else if t = 2 then
      (readLE 2 r).map fun p => (.smallint (patternToInt 2 p.1), p.2)
    else if t = 3 then
      (readLE 4 r).map fun p => (.int (patternToInt 4 p.1), p.2)
    else if t = 4 then
      (readLE 8 r).map fun p => (.bigint (patternToInt 8 p.1), p.2)
    else if t = 5 then
      (readLE 4 r).map fun p => (.float p.1, p.2)
    else if t = 6 then
      (readLE 8 r).map fun p => (.double p.1, p.2)
    else if t = 7 ∨ t = 8 then
      match readLE 4 r with
      | none => none
      | some (len, r2) =>
        if len ≤ r2.length then some (.bytes (r2.take len), r2.drop len) else none
    else none

/-- Validity of a field value: signed integers lie in their native range,
float/double bit patterns fit their width, byte payloads are bytes and the
length fits the 4-byte length prefix (spec section 4.1: strings/blobs longer
than 2^32 - 1 bytes are not representable). -/
def Field.valid : Field → Prop
  | .notype => True
  | .null => True
  | .smallint v => -(2 ^ 15) ≤ v ∧ v < 2 ^ 15
  | .int v => -(2 ^ 31) ≤ v ∧ v < 2 ^ 31
  | .bigint v => -(2 ^ 63) ≤ v ∧ v < 2 ^ 63
  | .float b => b < 2 ^ 32
  | .double b => b < 2 ^ 64
  | .bytes s => s.length < 2 ^ 32 ∧ ∀ b ∈ s, b < 256

theorem leBytes_length (w : Nat) : ∀ v : Nat, (leBytes w v).length = w := by
  induction w with
  | zero => intro v; rfl
  | succ n ih => intro v; simp [leBytes, ih]

theorem leVal_leBytes (w : Nat) : ∀ v : Nat, leVal (leBytes w v) = v % 2 ^ (8 * w) := by
  induction w with
  | zero => intro v; simp [leBytes, leVal, Nat.mod_one]
  | succ n ih =>
    intro v
    have h8 : 8 * (n + 1) = 8 + 8 * n := by ring
    rw [h8, pow_add]
    show v % 256 % 256 + 256 * leVal (leBytes n (v / 256)) = v % (2 ^ 8 * 2 ^ (8 * n))
    rw [Nat.mod_mod_of_dvd _ (dvd_refl 256), ih]
    exact (Nat.mod_mul).symm

theorem readLE_leBytes (w v : Nat) (rest : List Nat) :
    readLE w (leBytes w v ++ rest) = some (v % 2 ^ (8 * w), rest) := by
  unfold readLE
  rw [if_pos, List.take_left' (leBytes_length w v), List.drop_left' (leBytes_length w v),
    leVal_leBytes]
  simp [leBytes_length]

theorem intToPattern_lt (w : Nat) (v : Int) : intToPattern w v < 2 ^ (8 * w) := by
  unfold intToPattern
  have hpos : (0 : Int) < ((2 ^ (8 * w) : Nat) : Int) := by positivity
  have := Int.emod_lt_of_pos v hpos
  omega

theorem patternToInt_intToPattern_2 (v : Int) (h1 : -(2 ^ 15) ≤ v) (h2 : v < 2 ^ 15) :
    patternToInt 2 (intToPattern 2 v) = v := by
  unfold patternToInt intToPattern
  norm_num
  omega

theorem patternToInt_intToPattern_4 (v : Int) (h1 : -(2 ^ 31) ≤ v) (h2 : v < 2 ^ 31) :
    patternToInt 4 (intToPattern 4 v) = v := by
  unfold patternToInt intToPattern
  norm_num
  omega

theorem patternToInt_intToPattern_8 (v : Int) (h1 : -(2 ^ 63) ≤ v) (h2 : v < 2 ^ 63) :
    patternToInt 8 (intToPattern 8 v) = v := by
  unfold patternToInt intToPattern
  norm_num
  omega

/-- C3: for every valid Field value, decoding the encoding gives back the
value (and consumes exactly the encoding, leaving any trailing bytes), and
the declared size of the value equals the length of its encoding. -/
theorem field_codec_roundtrip (f : Field) (hv : f.valid) (rest : List Nat) :
    Field.decode (f.encode ++ rest) = some (f, rest) ∧ f.size = f.encode.length := by
  cases f with
  | notype => simp [Field.encode, Field.decode, Field.size]
  | null => simp [Field.encode, Field.decode, Field.size]
  | smallint v =>
    obtain ⟨h1, h2⟩ := hv
    constructor
    · simp only [Field.encode, Field.decode, List.cons_append]
      norm_num
      rw [readLE_leBytes]
      have hlt : intToPattern 2 v < 65536 := by
        have := intToPattern_lt 2 v; norm_num at this; exact this
      simp [Nat.mod_eq_of_lt hlt, patternToInt_intToPattern_2 v h1 h2]
    · simp [Field.size, Field.encode, leBytes_length]
  | int v =>
    obtain ⟨h1, h2⟩ := hv
    constructor
    · simp only [Field.encode, Field.decode, List.cons_append]
      norm_num
      rw [readLE_leBytes]
      have hlt : intToPattern 4 v < 4294967296 := by
        have := intToPattern_lt 4 v; norm_num at this; exact this
      simp [Nat.mod_eq_of_lt hlt, patternToInt_intToPattern_4 v h1 h2]
    · simp [Field.size, Field.encode, leBytes_length]
  | bigint v =>
    obtain ⟨h1, h2⟩ := hv
    constructor
    · simp only [Field.encode, Field.decode, List.cons_append]
      norm_num
      rw [readLE_leBytes]
      have hlt : intToPattern 8 v < 18446744073709551616 := by
        have := intToPattern_lt 8 v; norm_num at this; exact this
      simp [Nat.mod_eq_of_lt hlt, patternToInt_intToPattern_8 v h1 h2]
    · simp [Field.size, Field.encode, leBytes_length]
  | float b =>
    constructor
    · simp only [Field.encode, Field.decode, List.cons_append]
      norm_num
      rw [readLE_leBytes]
      have hb : b < 4294967296 := by
        have h : b < 2 ^ (8 * 4) := by norm_num; exact hv
        norm_num at h; exact h
      simp [Nat.mod_eq_of_lt hb]
    · simp [Field.size, Field.encode, leBytes_length]
  | double b =>
    constructor
    · simp only [Field.encode, Field.decode, List.cons_append]
      norm_num
      rw [readLE_leBytes]
      have hb : b < 18446744073709551616 := by
        have h : b < 2 ^ (8 * 8) := by norm_num; exact hv
        norm_num at h; exact h
      simp [Nat.mod_eq_of_lt hb]
    · simp [Field.size, Field.encode, leBytes_length]
  | bytes s =>
    obtain ⟨hlen, _⟩ := hv
    have htrunc : s.length % 2 ^ 32 = s.length := Nat.mod_eq_of_lt hlen
    have htake : s.take (s.length % 2 ^ 32) = s := by rw [htrunc]; simp
    constructor
    · simp only [Field.encode, Field.decode, List.cons_append, htake]
      norm_num
      rw [readLE_leBytes]
      have h32 : s.length % 4294967296 = s.length := by omega
      have hle : s.length ≤ (s ++ rest).length := by simp
      simp [h32, hle, List.take_left, List.drop_left]
    · simp [Field.size, Field.encode, leBytes_length, htake]; omega

/-- Witness for C3 at a concrete input. -/
theorem field_codec_roundtrip_witness :
    Field.decode ((Field.bytes [104, 105]).encode ++ [9]) = some (Field.bytes [104, 105], [9]) ∧
    (Field.bytes [104, 105]).size = (Field.bytes [104, 105]).encode.length :=
  field_codec_roundtrip (Field.bytes [104, 105]) (by constructor <;> decide) [9]

/-- Pending index operation tag, `IndexOperation` from the index overlay
(`src/Indexes.cpp`). -/
inductive IndexOperation where
  | Insert
  | Delete
  deriving DecidableEq

/-- Composite index key, `impl::KeyType` =
`std::tuple<std::vector<Field>, uint64_t, uint32_t>`: the indexed field
values, the version marker, and the disambiguator. -/
structure KeyType where
  fields : List Field
  version : Nat
  disamb : Nat
  deriving DecidableEq

/-- Maximal unsigned 64-bit value, `std::numeric_limits<uint64_t>::max()`,
used by the overlay as the staging version marker. -/
def u64max : Nat := 2 ^ 64 - 1

/-- Staged value for a key, `impl::ValueType` = pending operation tag plus
the row key (`key_t`). -/
def ValueType := IndexOperation × Nat

instance : DecidableEq ValueType := by
  unfold ValueType; exact inferInstance

/-- Lexicographic strict order on lists given a strict order on elements
(the behaviour of `operator<` on `std::vector`/`std::tuple`). -/
def listLtb {α : Type} (lt : α → α → Bool) : List α → List α → Bool
  | _, [] => false
  | [], _ :: _ => true
  | a :: as, b :: bs => if lt a b then true else if lt b a then false else listLtb lt as bs

/-- Rank of a field variant, used to order fields of different variants.
Modelled from the spec: `Field::operator<` lives in `telldb/Field.hpp`,
which is not under `src/`; the spec (section 3) only requires a total order
on composite keys, lexicographic over the field list. -/
def Field.rank : Field → Nat
  | .notype => 0
  | .null => 1
  | .smallint _ => 2
  | .int _ => 3
  | .bigint _ => 4
  | .float _ => 5
  | .double _ => 6
  | .bytes _ => 7

/-- Strict order on fields: by payload within a variant, by variant rank
across variants.  Modelled from the spec (see `Field.rank`). -/
def Field.ltb : Field → Field → Bool
  | .smallint a, .smallint b => a < b
  | .int a, .int b => a < b
  | .bigint a, .bigint b => a < b
  | .float a, .float b => a < b
  | .double a, .double b => a < b
  | .bytes a, .bytes b => listLtb (fun x y => x < y) a b
  | a, b => a.rank < b.rank

/-- Strict order on composite keys: lexicographic over the field list, then
version marker, then disambiguator (`std::tuple` ordering on `KeyType`). -/
def KeyType.ltb (a b : KeyType) : Bool :=
  if listLtb Field.ltb a.fields b.fields then true
  else if listLtb Field.ltb b.fields a.fields then false
  else if a.version < b.version then true
  else if b.version < a.version then false
  else decide (a.disamb < b.disamb)

/-- Merged overlay iterator, `IndexWrapper::Iterator` (`src/Indexes.cpp`).
Each of the two underlying cursors is represented by the list of entries it
has not yet yielded, so a cursor equal to its end iterator is the empty
list. -/
structure OverlayIterator where
  idxRem : List (KeyType × ValueType)
  cacheRem : List (KeyType × ValueType)

/-- Exhaustion test of the merged iterator, `IndexWrapper::Iterator::done`:
`cacheIter == cacheEnd && idxIter == idxEnd`. -/
def OverlayIterator.done (it : OverlayIterator) : Bool :=
  it.cacheRem.isEmpty && it.idxRem.isEmpty

/-- Transaction-local view of one secondary index, `impl::IndexWrapper`:
the schema ids of the indexed fields (`mFields`), the persisted index
structure's entries in key order (`mBdTree`, behind `BdTreeBackend`), and
the staged-mutation cache (`mCache`, an ordered map represented here as an
association list). -/
structure IndexWrapperM where
  fields : List Nat
  tree : List (KeyType × ValueType)
  cache : List (KeyType × ValueType)

/-- Lookup in the staged cache (key membership of the `std::map`). -/
def cacheFind : List (KeyType × ValueType) → KeyType → Option ValueType
  | [], _ => none
  | e :: es, k => if e.1 = k then some e.2 else cacheFind es k

/-- Staging a cache entry, `mCache.emplace(k, v)`: `std::map::emplace`
inserts only if the key is absent and otherwise leaves the map unchanged. -/
def cacheEmplace (c : List (KeyType × ValueType)) (k : KeyType) (v : ValueType) :
    List (KeyType × ValueType) :=
  match cacheFind c k with
  | some _ => c
  | none => c ++ [(k, v)]

/-- Indexed field combination of a row, `IndexWrapper::keyOf`: the row's
fields at the schema ids `mFields`.  A `Tuple` is its field list
(`telldb/Tuple.hpp`). -/
def keyOf (fields : List Nat) (t : List Field) : List Field :=
  fields.map fun f => t.getD f Field.notype

/-- Positioning of the merged iterator, `IndexWrapper::lower_bound`: the
search key is `KeyType{key, 0ul, 0u}`; the persisted cursor starts at
`mBdTree.find(k)` and the cache cursor at `mCache.lower_bound(k)`, i.e. each
cursor skips the entries strictly below `k`. -/
def IndexWrapperM.lowerBound (w : IndexWrapperM) (key : List Field) : OverlayIterator :=
  let k : KeyType := ⟨key, 0, 0⟩
  ⟨w.tree.dropWhile (fun e => KeyType.ltb e.1 k),
   w.cache.dropWhile (fun e => KeyType.ltb e.1 k)⟩

/-- Staging an insert, `IndexWrapper::insert`: emplaces
`(KeyType{keyOf(tuple), uint64max, 0u}, (Insert, k))`. -/
def IndexWrapperM.insertRow (w : IndexWrapperM) (k : Nat) (t : List Field) : IndexWrapperM :=
  { w with cache := cacheEmplace w.cache ⟨keyOf w.fields t, u64max, 0⟩ (IndexOperation.Insert, k) }

/-- Staging an update, `IndexWrapper::update`: if the indexed field
combinations of the old and the new row differ, emplaces a `Delete` under
the old key and an `Insert` under the new key, both tagged with the row key;
otherwise does nothing. -/
def IndexWrapperM.updateRow (w : IndexWrapperM) (key : Nat) (old next : List Field) :
    IndexWrapperM :=
  let oldKey := keyOf w.fields old
  let newKey := keyOf w.fields next
  if oldKey ≠ newKey then
    let c1 := cacheEmplace w.cache ⟨oldKey, u64max, 0⟩ (IndexOperation.Delete, key)
    { w with cache := cacheEmplace c1 ⟨newKey, u64max, 0⟩ (IndexOperation.Insert, key) }
  else w

/-- Staging a remove, `IndexWrapper::remove`: emplaces
`(KeyType{keyOf(tuple), uint64max, 0u}, (Delete, key))`. -/
def IndexWrapperM.removeRow (w : IndexWrapperM) (key : Nat) (t : List Field) : IndexWrapperM :=
  { w with cache := cacheEmplace w.cache ⟨keyOf w.fields t, u64max, 0⟩ (IndexOperation.Delete, key) }

/-- C4: a merged iterator obtained from lower_bound is done exactly when both
underlying cursors — the persisted-index cursor and the staged-cache
cursor — are exhausted. -/
theorem lowerBound_done_iff_both_exhausted (w : IndexWrapperM) (key : List Field) :
    (w.lowerBound key).done = true ↔
      (w.lowerBound key).idxRem = [] ∧ (w.lowerBound key).cacheRem = [] := by
  unfold OverlayIterator.done
  rw [Bool.and_eq_true, List.isEmpty_iff, List.isEmpty_iff]
  exact and_comm

theorem cacheFind_append_none (c : List (KeyType × ValueType)) (k : KeyType)
    (e : KeyType × ValueType) (h : cacheFind c k = none) (hne : e.1 ≠ k) :
    cacheFind (c ++ [e]) k = none := by
  induction c with
  | nil => simp [cacheFind, hne]
  | cons a as ih =>
    rw [List.cons_append]
    by_cases ha : a.1 = k
    · simp [cacheFind, ha] at h
    · simp only [cacheFind, ha, if_false] at h ⊢
      exact ih h

theorem cacheEmplace_absent (c : List (KeyType × ValueType)) (k : KeyType) (v : ValueType)
    (h : cacheFind c k = none) : cacheEmplace c k v = c ++ [(k, v)] := by
  unfold cacheEmplace
  rw [h]

theorem cacheFind_append_self (c : List (KeyType × ValueType)) (k : KeyType) (v : ValueType)
    (h : cacheFind c k = none) : cacheFind (c ++ [(k, v)]) k = some v := by
  induction c with
  | nil => simp [cacheFind]
  | cons a as ih =>
    rw [List.cons_append]
    by_cases ha : a.1 = k
    · simp [cacheFind, ha] at h
    · simp only [cacheFind, ha, if_false] at h ⊢
      exact ih h

/-- C5: update stages zero index mutations when the indexed field combination
of the old and the new row agree, and otherwise (when neither composite key
is already staged) stages exactly two mutations: a Delete tagged with the row
key under the old row's composite key and an Insert tagged with the same row
key under the new row's composite key. -/
theorem update_stages_two_or_zero (w : IndexWrapperM) (rk : Nat) (old next : List Field) :
    (keyOf w.fields old = keyOf w.fields next → w.updateRow rk old next = w) ∧
    (keyOf w.fields old ≠ keyOf w.fields next →
      cacheFind w.cache ⟨keyOf w.fields old, u64max, 0⟩ = none →
      cacheFind w.cache ⟨keyOf w.fields next, u64max, 0⟩ = none →
      (w.updateRow rk old next).cache =
        w.cache ++ [(⟨keyOf w.fields old, u64max, 0⟩, (IndexOperation.Delete, rk)),
                    (⟨keyOf w.fields next, u64max, 0⟩, (IndexOperation.Insert, rk))]) := by
  constructor
  · intro heq
    unfold IndexWrapperM.updateRow
    simp [heq]
  · intro hne hold hnew
    unfold IndexWrapperM.updateRow
    simp only [hne, ne_eq, not_false_iff, if_true]
    rw [cacheEmplace_absent _ _ _ hold]
    have hnew2 : cacheFind (w.cache ++ [(⟨keyOf w.fields old, u64max, 0⟩,
        (IndexOperation.Delete, rk))]) ⟨keyOf w.fields next, u64max, 0⟩ = none := by
      apply cacheFind_append_none _ _ _ hnew
      intro h
      exact hne (congrArg KeyType.fields h)
    rw [cacheEmplace_absent _ _ _ hnew2]
    simp

/-- Witness for C5 at a concrete input: a one-field index, an update that
changes the indexed field from int 1 to int 2 stages exactly the Delete and
the Insert. -/
theorem update_stages_two_or_zero_witness :
    (IndexWrapperM.mk [0] [] [] |>.updateRow 7 [Field.int 1] [Field.int 2]).cache =
      [(⟨[Field.int 1], u64max, 0⟩, (IndexOperation.Delete, 7)),
       (⟨[Field.int 2], u64max, 0⟩, (IndexOperation.Insert, 7))] := by
  have h := (update_stages_two_or_zero ⟨[0], [], []⟩ 7 [Field.int 1] [Field.int 2]).2
    (by decide) rfl rfl
  simpa using h

/-- C10: the staged cache uses insert-if-absent, so staging an operation
under a composite key already staged in the same transaction leaves the
earlier entry in place and silently discards the new operation; in
particular an insert of a row followed by a remove of the same row (with
unchanged indexed fields) leaves the key staged as Insert, not Delete. -/
theorem emplace_first_wins (w : IndexWrapperM) (rk : Nat) (t : List Field) :
    (∀ (c : List (KeyType × ValueType)) (k : KeyType) (v v0 : ValueType),
      cacheFind c k = some v0 → cacheEmplace c k v = c) ∧
    (cacheFind w.cache ⟨keyOf w.fields t, u64max, 0⟩ = none →
      ((w.insertRow rk t).removeRow rk t).cache = (w.insertRow rk t).cache ∧
      cacheFind ((w.insertRow rk t).removeRow rk t).cache ⟨keyOf w.fields t, u64max, 0⟩ =
        some (IndexOperation.Insert, rk)) := by
  have hgen : ∀ (c : List (KeyType × ValueType)) (k : KeyType) (v v0 : ValueType),
      cacheFind c k = some v0 → cacheEmplace c k v = c := by
    intro c k v v0 h
    unfold cacheEmplace
    rw [h]
  refine ⟨hgen, fun habs => ?_⟩
  have hfound : cacheFind (w.insertRow rk t).cache ⟨keyOf w.fields t, u64max, 0⟩ =
      some (IndexOperation.Insert, rk) := by
    unfold IndexWrapperM.insertRow
    simp only
    rw [cacheEmplace_absent _ _ _ habs]
    exact cacheFind_append_self _ _ _ habs
  have hfields : (w.insertRow rk t).fields = w.fields := rfl
  constructor
  · unfold IndexWrapperM.removeRow
    simp only [hfields]
    rw [hgen _ _ _ _ hfound]
  · unfold IndexWrapperM.removeRow
    simp only [hfields]
    rw [hgen _ _ _ _ hfound]
    exact hfound

/-- Witness for C10 at a concrete input: inserting row 5 and then removing
it with unchanged indexed fields leaves the key staged as Insert. -/
theorem emplace_first_wins_witness :
    (((⟨[0], [], []⟩ : IndexWrapperM).insertRow 5 [Field.int 1]).removeRow 5 [Field.int 1]).cache
        = ((⟨[0], [], []⟩ : IndexWrapperM).insertRow 5 [Field.int 1]).cache ∧
    cacheFind ((((⟨[0], [], []⟩ : IndexWrapperM).insertRow 5
          [Field.int 1]).removeRow 5 [Field.int 1]).cache)
        ⟨keyOf [0] [Field.int 1], u64max, 0⟩ = some (IndexOperation.Insert, 5) :=
  (emplace_first_wins ⟨[0], [], []⟩ 5 [Field.int 1]).2 rfl

/-- An overlay mutation call within one transaction: one of the three
staging entry points of `IndexWrapper`. -/
inductive OverlayOp where
  | insOp (rk : Nat) (t : List Field)
  | updOp (rk : Nat) (old next : List Field)
  | remOp (rk : Nat) (t : List Field)

/-- Apply one overlay mutation call. -/
def applyOp (w : IndexWrapperM) : OverlayOp → IndexWrapperM
  | .insOp rk t => w.insertRow rk t
  | .updOp rk o n => w.updateRow rk o n
  | .remOp rk t => w.removeRow rk t

/-- Apply a sequence of overlay mutation calls in order. -/
def applyOps (w : IndexWrapperM) (ops : List OverlayOp) : IndexWrapperM :=
  ops.foldl applyOp w

/-- Indexed field combinations an overlay mutation call can stage: the row's
indexed fields (for update, of both the old and the new row). -/
def opKeyFields (fields : List Nat) : OverlayOp → List (List Field)
  | .insOp _ t => [keyOf fields t]
  | .updOp _ o n => [keyOf fields o, keyOf fields n]
  | .remOp _ t => [keyOf fields t]

theorem cacheEmplace_mem (c : List (KeyType × ValueType)) (k : KeyType) (v : ValueType)
    (e : KeyType × ValueType) (h : e ∈ cacheEmplace c k v) : e ∈ c ∨ e = (k, v) := by
  unfold cacheEmplace at h
  cases hf : cacheFind c k with
  | some v0 => rw [hf] at h; exact Or.inl h
  | none =>
    rw [hf] at h
    rcases List.mem_append.mp h with h1 | h1
    · exact Or.inl h1
    · exact Or.inr (List.mem_singleton.mp h1)

theorem applyOp_fields (w : IndexWrapperM) (op : OverlayOp) :
    (applyOp w op).fields = w.fields := by
  cases op with
  | insOp rk t => rfl
  | updOp rk o n =>
    unfold applyOp IndexWrapperM.updateRow
    by_cases h : keyOf w.fields o ≠ keyOf w.fields n <;> simp [h]
  | remOp rk t => rfl

theorem applyOp_cache_mem (w : IndexWrapperM) (op : OverlayOp) (e : KeyType × ValueType)
    (h : e ∈ (applyOp w op).cache) :
    e ∈ w.cache ∨
      (e.1.version = u64max ∧ e.1.disamb = 0 ∧ e.1.fields ∈ opKeyFields w.fields op) := by
  cases op with
  | insOp rk t =>
    rcases cacheEmplace_mem _ _ _ _ h with h1 | h1
    · exact Or.inl h1
    · right; rw [h1]; simp [opKeyFields]
  | updOp rk o n =>
    simp only [applyOp, IndexWrapperM.updateRow] at h
    by_cases hk : keyOf w.fields o ≠ keyOf w.fields n
    · rw [if_pos hk] at h
      rcases cacheEmplace_mem _ _ _ _ h with h1 | h1
      · rcases cacheEmplace_mem _ _ _ _ h1 with h2 | h2
        · exact Or.inl h2
        · right; rw [h2]; simp [opKeyFields]
      · right; rw [h1]; simp [opKeyFields]
    · rw [if_neg hk] at h
      exact Or.inl h
  | remOp rk t =>
    rcases cacheEmplace_mem _ _ _ _ h with h1 | h1
    · exact Or.inl h1
    · right; rw [h1]; simp [opKeyFields]

theorem applyOps_cache_mem (ops : List OverlayOp) :
    ∀ (w : IndexWrapperM) (e : KeyType × ValueType), e ∈ (applyOps w ops).cache →
      e ∈ w.cache ∨
        (e.1.version = u64max ∧ e.1.disamb = 0 ∧
          ∃ op ∈ ops, e.1.fields ∈ opKeyFields w.fields op) := by
  induction ops with
  | nil => intro w e h; exact Or.inl h
  | cons op rest ih =>
    intro w e h
    have hstep := ih (applyOp w op) e h
    rcases hstep with h1 | h1
    · rcases applyOp_cache_mem w op e h1 with h2 | h2
      · exact Or.inl h2
      · right
        exact ⟨h2.1, h2.2.1, op, List.mem_cons_self op rest, h2.2.2⟩
    · right
      obtain ⟨hv, hd, op2, hop2, hf⟩ := h1
      rw [applyOp_fields] at hf
      exact ⟨hv, hd, op2, List.mem_cons_of_mem op hop2, hf⟩

/-- C6: starting from an overlay with an empty staged cache, after any
sequence of insert/update/remove calls every staged entry has a composite
key whose version marker is the maximal unsigned 64-bit value, whose
disambiguator is zero, and whose field list is the indexed field combination
of a row passed to one of the calls. -/
theorem staged_key_invariant (fields : List Nat) (tree : List (KeyType × ValueType))
    (ops : List OverlayOp) (e : KeyType × ValueType)
    (h : e ∈ (applyOps ⟨fields, tree, []⟩ ops).cache) :
    e.1.version = u64max ∧ e.1.disamb = 0 ∧
      ∃ op ∈ ops, e.1.fields ∈ opKeyFields fields op := by
  rcases applyOps_cache_mem ops ⟨fields, tree, []⟩ e h with h1 | h1
  · simp at h1
  · exact h1

/-- Witness for C6 at a concrete input: one insert followed by a remove of a
different row. -/
theorem staged_key_invariant_witness :
    (⟨⟨[Field.int 3], u64max, 0⟩, (IndexOperation.Insert, 1)⟩ : KeyType × ValueType).1.version
        = u64max ∧
    (⟨⟨[Field.int 3], u64max, 0⟩, (IndexOperation.Insert, 1)⟩ : KeyType × ValueType).1.disamb
        = 0 ∧
    ∃ op ∈ [OverlayOp.insOp 1 [Field.int 3], OverlayOp.remOp 2 [Field.int 4]],
      (⟨⟨[Field.int 3], u64max, 0⟩, (IndexOperation.Insert, 1)⟩ : KeyType × ValueType).1.fields
        ∈ opKeyFields [0] op :=
  staged_key_invariant [0] []
    [OverlayOp.insOp 1 [Field.int 3], OverlayOp.remOp 2 [Field.int 4]]
    ⟨⟨[Field.int 3], u64max, 0⟩, (IndexOperation.Insert, 1)⟩
    (by simp [applyOps, applyOp, IndexWrapperM.insertRow, IndexWrapperM.removeRow,
      cacheEmplace, cacheFind, keyOf, u64max])

/-- Undo-log chunking loop of `Transaction::writeUndoLog`
(`src/Transaction.cpp`): while `sizeWritten < log.first`, compute the chunk
key `((key >> 16) << 16) | chunkNum` (64-bit arithmetic), write
`min(log.first - sizeWritten, 1024)` bytes, and advance.  The written bytes
are `crossbow::string(log.second, toWrite)` — the first `toWrite` bytes of
the buffer; the code never advances `log.second` by `sizeWritten`.  The
`fuel` argument only drives the structural recursion; it is at least the
number of remaining chunks at every call site. -/
def chunkLoop (log : List Nat) : Nat → Nat → Nat → Nat → List (Nat × List Nat)
  | 0, _, _, _ => []
  | fuel + 1, key, sizeWritten, chunkNum =>
    if sizeWritten < log.length then
      let k := ((key >>> 16) <<< 16) ||| chunkNum
      let toWrite := min (log.length - sizeWritten) 1024
      (k, log.take toWrite) :: chunkLoop log fuel k (sizeWritten + toWrite) (chunkNum + 1)
    else []

/-- Chunked records written by `Transaction::writeUndoLog`: key/value pairs
passed to `mHandle.insert` on the transaction table.  The initial key is
`mSnapshot->version() << 16` (64-bit); a log of more than 1024 bytes goes
through the chunk loop, a smaller log is written as one record under the
initial key. -/
def writeUndoLogChunks (version : Nat) (log : List Nat) : List (Nat × List Nat) :=
  let key := (version <<< 16) % 2 ^ 64
  if log.length > 1024 then chunkLoop log log.length key 0 0
  else [(key, log)]

/-- Fixed 2500-byte undo log used as the failing input for C2: bytes
[0, 1024) are 0, bytes [1024, 2048) are 1, bytes [2048, 2500) are 2. -/
def undoLog2500 : List Nat :=
  List.replicate 1024 0 ++ List.replicate 1024 1 ++ List.replicate 452 2

theorem undoLog2500_length : undoLog2500.length = 2500 := by
  unfold undoLog2500
  rw [List.length_append, List.length_append, List.length_replicate, List.length_replicate,
    List.length_replicate]

theorem undoLog2500_take_1024 : undoLog2500.take 1024 = List.replicate 1024 0 := by
  unfold undoLog2500
  rw [List.append_assoc,
    List.take_append_of_le_length (le_of_eq (List.length_replicate 1024 0).symm),
    List.take_replicate, Nat.min_self]

theorem undoLog2500_take_452 : undoLog2500.take 452 = List.replicate 452 0 := by
  unfold undoLog2500
  rw [List.append_assoc,
    List.take_append_of_le_length (by rw [List.length_replicate]; norm_num),
    List.take_replicate, show min 452 1024 = 452 by decide]

theorem chunkLoop_step (log : List Nat) (fuel key sizeWritten chunkNum : Nat)
    (h : sizeWritten < log.length) :
    chunkLoop log (fuel + 1) key sizeWritten chunkNum =
      (((key >>> 16) <<< 16) ||| chunkNum,
        log.take (min (log.length - sizeWritten) 1024)) ::
        chunkLoop log fuel (((key >>> 16) <<< 16) ||| chunkNum)
          (sizeWritten + min (log.length - sizeWritten) 1024) (chunkNum + 1) := by
  simp only [chunkLoop]
  rw [if_pos h]

theorem chunkLoop_done (log : List Nat) (fuel key sizeWritten chunkNum : Nat)
    (h : ¬ sizeWritten < log.length) :
    chunkLoop log (fuel + 1) key sizeWritten chunkNum = [] := by
  simp only [chunkLoop]
  rw [if_neg h]

/-- C2 (failing input evaluation): the 2500-byte log is split into exactly 3
chunks with the claimed keys `(version << 16) | n` = 0, 1, 2 and the claimed
sizes 1024, 1024, 452 — but chunk 1 holds bytes [0, 1024) again (all zeros)
and chunk 2 holds bytes [0, 452), not the slices [1024, 2048) = 1024 ones
and [2048, 2500) = 452 twos: `writeUndoLog` never advances the buffer
pointer, so the stored chunks cannot be concatenated back into the log. -/
theorem writeUndoLog_chunks_reread_buffer_start :
    writeUndoLogChunks 0 undoLog2500 =
      [(0, List.replicate 1024 0), (1, List.replicate 1024 0), (2, List.replicate 452 0)] ∧
    (undoLog2500.drop 1024).take 1024 = List.replicate 1024 1 ∧
    undoLog2500.drop 2048 = List.replicate 452 2 := by
  refine ⟨?_, ?_, ?_⟩
  · unfold writeUndoLogChunks
    simp only [undoLog2500_length]
    rw [if_pos (by norm_num)]
    have hkey : ((0 : Nat) <<< 16) % 2 ^ 64 = 0 := by decide
    rw [hkey]
    rw [show (2500 : Nat) = 2499 + 1 by norm_num,
      chunkLoop_step _ _ _ _ _ (by rw [undoLog2500_length]; norm_num)]
    simp only [undoLog2500_length]
    have hk0 : (((0 : Nat) >>> 16) <<< 16) ||| 0 = 0 := by decide
    have hm0 : min (2500 - 0) 1024 = 1024 := by decide
    rw [hk0, hm0, undoLog2500_take_1024, Nat.zero_add]
    rw [show (2499 : Nat) = 2498 + 1 by norm_num,
      chunkLoop_step _ _ _ _ _ (by rw [undoLog2500_length]; norm_num)]
    simp only [undoLog2500_length]
    have hk1 : (((0 : Nat) >>> 16) <<< 16) ||| 1 = 1 := by decide
    have hm1 : min (2500 - 1024) 1024 = 1024 := by decide
    rw [hk1, hm1, undoLog2500_take_1024, show (1024 : Nat) + 1024 = 2048 by norm_num]
    rw [show (2498 : Nat) = 2497 + 1 by norm_num,
      chunkLoop_step _ _ _ _ _ (by rw [undoLog2500_length]; norm_num)]
    simp only [undoLog2500_length]
    have hk2 : (((1 : Nat) >>> 16) <<< 16) ||| 2 = 2 := by decide
    have hm2 : min (2500 - 2048) 1024 = 452 := by decide
    rw [hk2, hm2, undoLog2500_take_452, show (2048 : Nat) + 452 = 2500 by norm_num]
    rw [show (2497 : Nat) = 2496 + 1 by norm_num,
      chunkLoop_done _ _ _ _ _ (by rw [undoLog2500_length]; norm_num)]
  · unfold undoLog2500
    rw [List.append_assoc, List.drop_left' (List.length_replicate 1024 0),
      List.take_append_of_le_length (le_of_eq (List.length_replicate 1024 1).symm),
      List.take_replicate, Nat.min_self]
  · unfold undoLog2500
    rw [List.drop_left' (by rw [List.length_append, List.length_replicate,
      List.length_replicate])]

/-- Observable storage-tier interactions of a commit, in program order.
`undoIssue n` is the `mHandle.insert` call for undo-log chunk `n`,
`undoAwait n` the `waitForResult` on its response, `rowWriteback` the
completed forward row writeback (`mCache->writeBack()`), `indexWriteback`
the index writeback (`mCache->writeIndexes()`), and `snapshotCommit` the
`mHandle.commit(*mSnapshot)` call. -/
inductive Event where
  | undoIssue (chunkNum : Nat)
  | undoAwait (chunkNum : Nat)
  | rowWriteback
  | indexWriteback
  | snapshotCommit
  deriving DecidableEq

/-- Commit phase of an event: undo-log work first, then row writeback, then
index writeback, then the snapshot commit. -/
def Event.phase : Event → Nat
  | .undoIssue _ => 0
  | .undoAwait _ => 0
  | .rowWriteback => 1
  | .indexWriteback => 2
  | .snapshotCommit => 3

/-- Event trace of `Transaction::writeUndoLog` (`src/Transaction.cpp`): for
a log over 1024 bytes, all chunk inserts are issued in chunk order, then
every response is awaited — in reverse submission order (`rbegin..rend`) —
before the function returns; a smaller log issues and awaits one insert. -/
def writeUndoLogTrace (version : Nat) (log : List Nat) : List Event :=
  let chunks := writeUndoLogChunks version log
  if log.length > 1024 then
    ((List.range chunks.length).map Event.undoIssue) ++
      (((List.range chunks.length).reverse).map Event.undoAwait)
  else [Event.undoIssue 0, Event.undoAwait 0]

/-- Transaction state visible to `Transaction::commit`/`rollback`/`writeBack`
(`src/Transaction.cpp`): the `mCommitted` flag (set by both terminal paths,
so it covers Committed and RolledBack), whether the write buffer has staged
changes (`mCache->hasChanges()`), whether `mType == READ_WRITE`, the
snapshot version, and the serialized undo-log buffer. -/
structure TxState where
  committed : Bool
  hasChanges : Bool
  readWrite : Bool
  version : Nat
  undoLog : List Nat

/-- Error raised by transaction misuse, `std::logic_error`. -/
inductive TxError where
  | logicError (msg : String)
  deriving DecidableEq

/-- Event trace of `Transaction::writeBack(withIndexes)`
(`src/Transaction.cpp`): throws if already committed; returns with no work
if the cache has no changes; throws if the transaction is not read-write;
otherwise writes the undo log (awaiting every chunk response), then performs
row writeback, then — when `withIndexes` — index writeback.  Modelled from
the spec for the parts outside `src/`: `TransactionCache::writeBack` and
`TransactionCache::writeIndexes` are represented as single completed
writeback events (spec sections 4.4 and 5: row writeback completes before
index writeback is issued). -/
def writeBackTrace (tx : TxState) (withIndexes : Bool) : Except TxError (List Event) :=
  if tx.committed then .error (.logicError "Transaction has already committed")
  else if !tx.hasChanges then .ok []
  else if !tx.readWrite then .error (.logicError "Transaction is read only")
  else .ok (writeUndoLogTrace tx.version tx.undoLog ++ [Event.rowWriteback] ++
    (if withIndexes then [Event.indexWriteback] else []))

/-- Event trace and final state of `Transaction::commit`
(`src/Transaction.cpp`): `writeBack()` (with index writeback, per the data
flow of spec section 2), then `mHandle.commit(*mSnapshot)`, then
`mCommitted = true`. -/
def commitTrace (tx : TxState) : Except TxError (List Event × TxState) :=
  match writeBackTrace tx true with
  | .error e => .error e
  | .ok evs => .ok (evs ++ [Event.snapshotCommit], { tx with committed := true })

/-- Result of `Transaction::rollback` (`src/Transaction.cpp`): throws if the
transaction already reached a terminal state, otherwise reverts the cache
(`mCache->rollback()`, outside `src/`), commits the snapshot and marks the
transaction terminal. -/
def rollbackTx (tx : TxState) : Except TxError TxState :=
  if tx.committed then .error (.logicError "Transaction has already committed")
  else .ok { tx with committed := true, hasChanges := false }

/-- Commit-ordering property of an event trace: phases never decrease along
the trace (so every undo-log event precedes every row-writeback event, which
precedes every index-writeback event, which precedes the snapshot commit),
every issued undo-log chunk write is awaited within the trace, and the
snapshot commit is present. -/
def OrderedTrace (tr : List Event) : Prop :=
  (tr.map Event.phase).Pairwise (· ≤ ·) ∧
  (∀ n, Event.undoIssue n ∈ tr → Event.undoAwait n ∈ tr) ∧
  Event.snapshotCommit ∈ tr

theorem writeUndoLogTrace_phase (version : Nat) (log : List Nat) (e : Event)
    (h : e ∈ writeUndoLogTrace version log) : e.phase = 0 := by
  unfold writeUndoLogTrace at h
  by_cases hl : log.length > 1024
  · rw [if_pos hl] at h
    rcases List.mem_append.mp h with h1 | h1 <;>
      obtain ⟨n, _, hn⟩ := List.mem_map.mp h1 <;> rw [← hn] <;> rfl
  · rw [if_neg hl] at h
    rcases List.mem_cons.mp h with h1 | h1
    · rw [h1]; rfl
    · rw [List.mem_singleton.mp h1]; rfl

theorem writeUndoLogTrace_await (version : Nat) (log : List Nat) (n : Nat)
    (h : Event.undoIssue n ∈ writeUndoLogTrace version log) :
    Event.undoAwait n ∈ writeUndoLogTrace version log := by
  unfold writeUndoLogTrace at h ⊢
  by_cases hl : log.length > 1024
  · rw [if_pos hl] at h ⊢
    apply List.mem_append_right
    rcases List.mem_append.mp h with h1 | h1
    · obtain ⟨m, hm, hmn⟩ := List.mem_map.mp h1
      have hnm : m = n := by injection hmn
      apply List.mem_map.mpr
      exact ⟨n, List.mem_reverse.mpr (hnm ▸ hm), rfl⟩
    · obtain ⟨m, _, hmn⟩ := List.mem_map.mp h1
      cases hmn
  · rw [if_neg hl] at h ⊢
    rcases List.mem_cons.mp h with h1 | h1
    · have : n = 0 := by injection h1 with h2
      rw [this]
      exact List.mem_cons_of_mem _ (List.mem_singleton.mpr rfl)
    · cases List.mem_singleton.mp h1

/-- C1: in every transaction whose commit succeeds, the trace of storage
interactions is ordered: the whole undo log is persisted (every chunk-write
response awaited) before row writeback, row writeback completes before index
writeback, and index writeback precedes the snapshot-commit call. -/
theorem commit_trace_ordered (tx : TxState) (tr : List Event) (tx2 : TxState)
    (h : commitTrace tx = .ok (tr, tx2)) : OrderedTrace tr := by
  unfold commitTrace writeBackTrace at h
  by_cases hc : tx.committed
  · rw [if_pos hc] at h; cases h
  · rw [if_neg hc] at h
    by_cases hch : tx.hasChanges
    · simp only [hch, Bool.not_true, Bool.false_eq_true, if_false] at h
      by_cases hrw : tx.readWrite
      · simp only [hrw, Bool.not_true, Bool.false_eq_true, if_false, if_pos rfl] at h
        have htr : tr = writeUndoLogTrace tx.version tx.undoLog ++
            [Event.rowWriteback, Event.indexWriteback, Event.snapshotCommit] := by
          cases h
          rw [List.append_assoc, List.append_assoc]
          rfl
        subst htr
        refine ⟨?_, ?_, ?_⟩
        · rw [List.map_append, List.pairwise_append]
          refine ⟨?_, by decide, ?_⟩
          · apply List.pairwise_of_forall_mem_list
            intro a ha b hb
            obtain ⟨e, he, hea⟩ := List.mem_map.mp ha
            rw [← hea, writeUndoLogTrace_phase _ _ _ he]
            exact Nat.zero_le b
          · intro a ha b hb
            obtain ⟨e, he, hea⟩ := List.mem_map.mp ha
            rw [← hea, writeUndoLogTrace_phase _ _ _ he]
            exact Nat.zero_le b
        · intro n hn
          rcases List.mem_append.mp hn with h1 | h1
          · exact List.mem_append_left _ (writeUndoLogTrace_await _ _ _ h1)
          · simp at h1
        · exact List.mem_append_right _ (by simp)
      · simp only [hrw, Bool.not_false, if_pos rfl] at h
        cases h
    · simp only [hch, Bool.not_false, if_pos rfl] at h
      have htr : tr = [Event.snapshotCommit] := by cases h; rfl
      subst htr
      refine ⟨by simp, ?_, List.mem_singleton.mpr rfl⟩
      intro n hn
      cases List.mem_singleton.mp hn

/-- Witness for C1 at a concrete input: a read-write transaction with
changes and a 3-byte undo log. -/
theorem commit_trace_ordered_witness :
    OrderedTrace [Event.undoIssue 0, Event.undoAwait 0, Event.rowWriteback,
      Event.indexWriteback, Event.snapshotCommit] :=
  commit_trace_ordered ⟨false, true, true, 9, [1, 2, 3]⟩ _ ⟨true, true, true, 9, [1, 2, 3]⟩ rfl

/-- C8 (counterexample): a read-only transaction with an empty write buffer
commits successfully — `writeBack` returns at the `hasChanges` check before
ever reaching the read-only check, so no logic error is raised, refuting the
claim that commit on a read-only transaction always fails. -/
theorem readonly_empty_commit_succeeds :
    commitTrace ⟨false, false, false, 5, []⟩ =
      .ok ([Event.snapshotCommit], ⟨true, false, false, 5, []⟩) := rfl

/-- C8 (amended): commit on a read-only transaction fails with the
"Transaction is read only" logic error exactly when the write buffer has
changes; a commit of either transaction type with an empty write buffer
skips writeback entirely (no undo-log, row or index event) and only issues
the snapshot-commit call. -/
theorem commit_readonly_amended (tx : TxState) (hc : tx.committed = false) :
    (tx.hasChanges = true → tx.readWrite = false →
      commitTrace tx = .error (.logicError "Transaction is read only")) ∧
    (tx.hasChanges = false →
      commitTrace tx = .ok ([Event.snapshotCommit], { tx with committed := true })) := by
  constructor
  · intro hch hrw
    unfold commitTrace writeBackTrace
    rw [hc, hch, hrw]
    rfl
  · intro hch
    unfold commitTrace writeBackTrace
    rw [hc, hch]
    rfl

/-- Witness for C8's amended theorem at concrete inputs: a read-only
transaction with staged changes fails, and a read-write transaction with an
empty write buffer commits as a writeback no-op. -/
theorem commit_readonly_amended_witness :
    commitTrace ⟨false, true, false, 2, [7]⟩ =
      .error (.logicError "Transaction is read only") ∧
    commitTrace ⟨false, false, true, 2, []⟩ =
      .ok ([Event.snapshotCommit], ⟨true, false, true, 2, []⟩) :=
  ⟨(commit_readonly_amended ⟨false, true, false, 2, [7]⟩ rfl).1 rfl rfl,
   (commit_readonly_amended ⟨false, false, true, 2, []⟩ rfl).2 rfl⟩

/-- C9: once a transaction has reached a terminal state (`mCommitted` is set
by both the commit and the rollback path), any further commit or rollback
raises the "Transaction has already committed" logic error — neither call is
silently ignored. -/
theorem terminal_commit_rollback_error (tx : TxState) (h : tx.committed = true) :
    commitTrace tx = .error (.logicError "Transaction has already committed") ∧
    rollbackTx tx = .error (.logicError "Transaction has already committed") := by
  constructor
  · unfold commitTrace writeBackTrace
    rw [h]
    rfl
  · unfold rollbackTx
    rw [h]
    rfl

/-- Witness for C9 at a concrete terminal-state transaction. -/
theorem terminal_commit_rollback_error_witness :
    commitTrace ⟨true, true, true, 3, [4]⟩ =
      .error (.logicError "Transaction has already committed") ∧
    rollbackTx ⟨true, true, true, 3, [4]⟩ =
      .error (.logicError "Transaction has already committed") :=
  terminal_commit_rollback_error ⟨true, true, true, 3, [4]⟩ rfl

/-- Failure of `Indexes::openIndexes` (`src/Indexes.cpp`): either the
`OpenTableException` thrown by the error checks, or the fault produced by
calling `get()` on a storage response that holds an error (the tellstore
response type is outside `src/`; its `get()` on a failed lookup does not
throw `OpenTableException`). -/
inductive OpenErr where
  | openTableExn (msg : String)
  | responseGetFault
  deriving DecidableEq

/-- A declared index together with the outcomes of its two metadata lookups:
`handle.getTable("__index_nodes_" + name)` and
`handle.getTable("__index_ptrs_" + name)`. -/
structure IdxResp where
  name : String
  fields : List Nat
  nodeRes : Except String Unit
  ptrRes : Except String Unit

/-- Response-processing loop of `Indexes::openIndexes` over the collected
lookup responses (already reversed by the caller, matching the
`rbegin..rend` iteration).  For each index the code checks
`std::get<2>(*it)->error()` — the node-region response — twice (both error
checks name element 2; the pointer-region response in element 3 is never
checked), throwing `OpenTableException` on error; it then calls `get()` on
the pointer-region response and the node-region response to build the
wrapper. -/
def openIndexesLoop : List IdxResp → Except OpenErr (List String)
  | [] => .ok []
  | r :: rest =>
    match r.nodeRes with
    | .error m => .error (.openTableExn m)
    | .ok _ =>
      match r.nodeRes with
      | .error m => .error (.openTableExn m)
      | .ok _ =>
        match r.ptrRes with
        | .error _ => .error .responseGetFault
        | .ok _ =>
          match openIndexesLoop rest with
          | .error e => .error e
          | .ok names => .ok (r.name :: names)

/-- Model of `Indexes::openIndexes`: on a cache hit (`mIndexes.find` found
the table) the overlays are built from the cached metadata and no lookup is
issued; otherwise two `getTable` lookups per declared index are issued and
the responses are processed in reverse.  The result carries the wrapper
names and the number of lookup requests issued. -/
def openIndexes (cached : Option (List String)) (decl : List IdxResp) :
    Except OpenErr (List String × Nat) :=
  match cached with
  | some names => .ok (names, 0)
  | none =>
    match openIndexesLoop decl.reverse with
    | .error e => .error e
    | .ok names => .ok (names, 2 * decl.length)

/-- C7 (failing input evaluation): for an uncached table with one declared
index whose node-region lookup succeeds but whose pointer-region lookup
fails, `openIndexes` does not raise the cannot-open-table error — both error
checks inspect the node-region response, so the failed pointer-region
response reaches `get()` — while a node-region failure does raise
`OpenTableException`, and a cache hit issues no lookup. -/
theorem openIndexes_ptr_region_unchecked :
    openIndexes none [⟨"idx", [0], .ok (), .error "table does not exist"⟩] =
      .error OpenErr.responseGetFault ∧
    (∀ m, OpenErr.responseGetFault ≠ OpenErr.openTableExn m) ∧
    openIndexes none [⟨"idx", [0], .error "table does not exist", .ok ()⟩] =
      .error (OpenErr.openTableExn "table does not exist") ∧
    openIndexes (some ["idx"]) [⟨"idx", [0], .error "x", .error "x"⟩] = .ok (["idx"], 0) := by
  refine ⟨rfl, ?_, rfl, rfl⟩
  intro m h
  cases h

end TellDB
